import Mathlib

/-!
# Formal model of the tiny-time-tracker aggregation core

Shallow embedding of `src/tt_time/cli.py`: the duration parser
(`parse_duration`, the duration branch of `cmd_log`), the window clamp and
day-splitter (`clamp_interval`, `day_span` and the splitting loop of
`cmd_report`), the aggregation loop of `cmd_report`, and the ISO-week
grouping of `cmd_report`.

Timestamps are modelled as natural numbers: seconds of local wall-clock
time since 0001-01-01 00:00:00 (day number 0 = 0001-01-01, which is a
Monday; Python's `date.toordinal` of that day is 1, so our day number is
`toordinal - 1`).  `datetime.date()` of an instant `t` is `t / 86400`,
`timedelta` values are second counts.  The model works at second
resolution; Python additionally tracks microseconds, which none of the
verified properties depend on.
-/

deriving instance DecidableEq for Except

namespace TT

/-! ## Calendar arithmetic (Python `datetime` internals) -/

/-- Gregorian leap-year test, as in Python `datetime`. -/
def isLeap (y : Nat) : Bool :=
  (y % 4 == 0 && y % 100 != 0) || y % 400 == 0

/-- Number of days in month `m` of year `y` (Python `datetime` rules). -/
def daysInMonth (y m : Nat) : Nat :=
  if m = 2 then (if isLeap y then 29 else 28)
  else if m = 4 ∨ m = 6 ∨ m = 9 ∨ m = 11 then 30
  else 31

/-- Days strictly before January 1 of year `y`, counted from day 0 =
0001-01-01 (CPython `_days_before_year`). -/
def daysBeforeYear (y : Nat) : Nat :=
  365 * (y - 1) + (y - 1) / 4 - (y - 1) / 100 + (y - 1) / 400

/-- Days of year `y` strictly before the first of month `m`. -/
def daysBeforeMonth (y m : Nat) : Nat :=
  ((List.range (m - 1)).map (fun i => daysInMonth y (i + 1))).sum

/-- Day number (0-based ordinal) of the civil date `y-m-d`
(Python `date(y, m, d).toordinal() - 1`). -/
def toDayNumber (y m d : Nat) : Nat :=
  daysBeforeYear y + daysBeforeMonth y m + (d - 1)

/-- Seconds since day 0 midnight of the local datetime `y-mo-d h:mi:s`. -/
def toSec (y mo d h mi s : Nat) : Nat :=
  86400 * toDayNumber y mo d + 3600 * h + 60 * mi + s

/-- Year containing day number `g` (the year computation of CPython
`_ord2ymd`). -/
def yearOf (g : Nat) : Nat :=
  let n400 := g / 146097
  let a := g % 146097
  let n100 := a / 36524
  let b := a % 36524
  let n4 := b / 1461
  let c := b % 1461
  let n1 := c / 365
  let y := 400 * n400 + 100 * n100 + 4 * n4 + n1 + 1
  if n1 = 4 ∨ n100 = 4 then y - 1 else y

/-- Day number of the Monday starting ISO week 1 of year `y`
(CPython `_isoweek1monday`; day 0 is a Monday, so the weekday of day
number `g`, with Monday = 0, is `g % 7`). -/
def isoWeek1Monday (y : Nat) : Nat :=
  let jan1 := daysBeforeYear y
  let wd := jan1 % 7
  if wd ≤ 3 then jan1 - wd else jan1 - wd + 7

/-- ISO (year, week) of day number `g`: the first two components of
Python `date.isocalendar()`. -/
def isoYearWeek (g : Nat) : Nat × Nat :=
  let y := yearOf g
  let w1 := isoWeek1Monday y
  if g < w1 then
    (y - 1, (g - isoWeek1Monday (y - 1)) / 7 + 1)
  else
    let week := (g - w1) / 7
    if 52 ≤ week ∧ isoWeek1Monday (y + 1) ≤ g then (y + 1, 1)
    else (y, week + 1)

/-! ## `datetime.fromisoformat` -/

/-- Numeric value of a run of decimal digit characters (Python `int` on a
digit string). -/
def natOfDigitChars (cs : List Char) : Nat :=
  cs.foldl (fun a c => 10 * a + (c.toNat - 48)) 0

/-- The `YYYY-MM-DD` date part accepted by `datetime.fromisoformat`,
validated against the calendar, as a day number. -/
def parseIsoDate : List Char → Option Nat
  | [y1, y2, y3, y4, '-', m1, m2, '-', d1, d2] =>
    if ([y1, y2, y3, y4, m1, m2, d1, d2].all Char.isDigit) then
      let y := natOfDigitChars [y1, y2, y3, y4]
      let mo := natOfDigitChars [m1, m2]
      let d := natOfDigitChars [d1, d2]
      if 1 ≤ y ∧ 1 ≤ mo ∧ mo ≤ 12 ∧ 1 ≤ d ∧ d ≤ daysInMonth y mo then
        some (toDayNumber y mo d)
      else none
    else none
  | _ => none

/-- A two-digit field. -/
def twoDigitVal (a b : Char) : Option Nat :=
  if a.isDigit ∧ b.isDigit then some (natOfDigitChars [a, b]) else none

/-- Optional fractional-second suffix `.f` with 1 to 6 digits; its value is
ignored (the model works at second resolution). -/
def parseFraction : List Char → Option Unit
  | [] => some ()
  | '.' :: ds =>
    if ds ≠ [] ∧ ds.length ≤ 6 ∧ ds.all Char.isDigit then some () else none
  | _ => none

/-- The `HH[:MM[:SS[.ffffff]]]` time part accepted by
`datetime.fromisoformat`, as seconds within the day. -/
def parseIsoTime : List Char → Option Nat
  | [h1, h2] => do
    let h ← twoDigitVal h1 h2
    if h ≤ 23 then some (3600 * h) else none
  | [h1, h2, ':', m1, m2] => do
    let h ← twoDigitVal h1 h2
    let mi ← twoDigitVal m1 m2
    if h ≤ 23 ∧ mi ≤ 59 then some (3600 * h + 60 * mi) else none
  | h1 :: h2 :: ':' :: m1 :: m2 :: ':' :: s1 :: s2 :: rest => do
    let h ← twoDigitVal h1 h2
    let mi ← twoDigitVal m1 m2
    let s ← twoDigitVal s1 s2
    let _ ← parseFraction rest
    if h ≤ 23 ∧ mi ≤ 59 ∧ s ≤ 59 then some (3600 * h + 60 * mi + s) else none
  | _ => none

/-- Model of `datetime.fromisoformat`: a 10-character date, optionally
followed by a one-character separator and a time part.  Returns seconds
since day 0, or `none` where Python raises `ValueError`. -/
def fromisoformat (s : String) : Option Nat :=
  let cs := s.data
  if cs.length = 10 then (parseIsoDate cs).map (fun d => 86400 * d)
  else if 11 ≤ cs.length then do
    let d ← parseIsoDate (cs.take 10)
    let t ← parseIsoTime (cs.drop 11)
    some (86400 * d + t)
  else none

/-! ## `parse_duration` and the duration branch of `cmd_log` -/

/-- Python `s.strip()`: drop leading and trailing whitespace.  (Python
strips a slightly larger Unicode whitespace set; no verified property
depends on the difference.) -/
def pyStrip (cs : List Char) : List Char :=
  ((cs.dropWhile Char.isWhitespace).reverse.dropWhile Char.isWhitespace).reverse

/-- Python `s.lower()` on ASCII input. -/
def pyLower (cs : List Char) : List Char := cs.map Char.toLower

/-- The mutable state of the `parse_duration` character loop:
`total` minutes accumulated so far, the pending digit run `num`, and the
`had_unit` flag. -/
structure ScanState where
  total : Nat
  num : List Char
  hadUnit : Bool
deriving Repr, DecidableEq

/-- One iteration of the `for ch in s` loop of `parse_duration`. -/
def scanChar (st : ScanState) (c : Char) : Except String ScanState :=
  if c.isDigit then Except.ok { st with num := st.num ++ [c] }
  else if c = 'h' ∨ c = 'm' then
    if st.num = [] then Except.error "Missing number before unit"
    else if c = 'h' then Except.ok ⟨st.total + natOfDigitChars st.num * 60, [], true⟩
    else Except.ok ⟨st.total + natOfDigitChars st.num, [], true⟩
  else if c = ':' then Except.ok st
  else Except.error ("Unsupported character in duration: " ++ c.toString)

/-- The `for ch in s` loop of `parse_duration`: a raised `ValueError`
aborts the loop. -/
def scanAll : ScanState → List Char → Except String ScanState
  | st, [] => Except.ok st
  | st, c :: cs =>
    match scanChar st c with
    | Except.error e => Except.error e
    | Except.ok st2 => scanAll st2 cs

/-- `parse_duration` on the character list obtained after strip/lower.
Python's `total <= 0` test is `total = 0` on `Nat`. -/
def durationOfChars (cs : List Char) : Except String Nat :=
  match scanAll ⟨0, [], false⟩ cs with
  | Except.error e => Except.error e
  | Except.ok st =>
    let total := if st.num ≠ [] ∧ st.hadUnit = false
                 then st.total + natOfDigitChars st.num else st.total
    if total = 0 then Except.error "Duration must be > 0" else Except.ok total

/-- `parse_duration` after the initial `s.strip().lower()`. -/
def parse_durationChars (cs : List Char) : Except String Nat :=
  durationOfChars (pyLower (pyStrip cs))

/-- `parse_duration(s)`: total minutes, or the `ValueError` message. -/
def parse_duration (s : String) : Except String Nat :=
  parse_durationChars s.data

/-- Python `txt.replace(".", "", 1)`: remove the first dot, if any. -/
def removeFirstDot : List Char → List Char
  | [] => []
  | c :: cs => if c = '.' then cs else c :: removeFirstDot cs

/-- Python `txt.replace(".", "", 1).isdigit()`. -/
def isPlainNumber (cs : List Char) : Bool :=
  let cs2 := removeFirstDot cs
  !cs2.isEmpty && cs2.all Char.isDigit

/-- Split a plain-number token at its first dot. -/
def splitAtDot : List Char → List Char × List Char
  | [] => ([], [])
  | c :: cs =>
    if c = '.' then ([], cs)
    else
      let p := splitAtDot cs
      (c :: p.1, p.2)

/-- Decimal value of a plain-number token as an exact rational (Python
reads it with `float`; exact on every input exercised here). -/
def decimalValue (cs : List Char) : ℚ :=
  let p := splitAtDot cs
  (natOfDigitChars p.1 : ℚ) + (natOfDigitChars p.2 : ℚ) / (10 : ℚ) ^ p.2.length

/-- The duration logic of `cmd_log`, in minutes: a plain decimal number is
read as hours (rejecting values ≤ 0), anything else goes through
`parse_duration`. -/
def cmd_log_minutes (s : String) : Except String ℚ :=
  let txt := pyStrip s.data
  if isPlainNumber txt then
    let hours := decimalValue txt
    if hours ≤ 0 then Except.error "Duration must be > 0"
    else Except.ok (hours * 60)
  else (parse_durationChars txt).map (fun m => (m : ℚ))

/-! ## Window clamp and day splitting -/

/-- `day_span(dt)`: the next local midnight strictly after `dt`
(`(dt + timedelta(days=1)).replace(hour=0, minute=0, second=0, ...)`). -/
def day_span (t : Nat) : Nat := 86400 * (t / 86400 + 1)

/-- `clamp_interval(a, b, lo, hi)`. -/
def clamp_interval (a b lo hi : Nat) : Option (Nat × Nat) :=
  let s := max a lo
  let e := min b hi
  if e ≤ s then none else some (s, e)

/-- One day segment emitted by the splitting loop of `cmd_report`:
the calendar day (`cur_start.date()`, as a day number) and the segment's
start and end instants. -/
structure Segment where
  day : Nat
  segStart : Nat
  segEnd : Nat
deriving Repr, DecidableEq

/-- The `while cur_start < cur_end` splitting loop of `cmd_report`.
The `fuel` argument only makes the recursion structural; `splitDays`
supplies enough fuel for the loop to run to completion. -/
def splitGo : Nat → Nat → Nat → List Segment
  | 0, _, _ => []
  | fuel + 1, curStart, curEnd =>
    if curStart < curEnd then
      let segEnd := min curEnd (day_span curStart)
      { day := curStart / 86400, segStart := curStart, segEnd := segEnd }
        :: splitGo fuel segEnd curEnd
    else []

/-- Split a clamped range `[s, e)` at every local midnight (the day loop of
`cmd_report`).  Each iteration either finishes or advances to the next
midnight, so `e/86400 + 1 - s/86400` steps always suffice. -/
def splitDays (s e : Nat) : List Segment :=
  splitGo (e / 86400 + 1 - s / 86400) s e

/-! ## Aggregation (`cmd_report` main loop) -/

/-- A tracked interval after timestamp parsing: project name, start
instant, and optional end instant (`None` = still running).  `stop` stands
for the Python field `end`. -/
structure Interval where
  project : String
  start : Nat
  stop : Option Nat
deriving Repr, DecidableEq

/-- `end = datetime.fromisoformat(end_s) if end_s else now`. -/
def effectiveEnd (stop : Option Nat) (now : Nat) : Nat := stop.getD now

/-- The two aggregation dictionaries of `cmd_report`, as total functions
(a key absent from the Python dict reads as duration 0; the loop only ever
inserts strictly positive durations, so presence of a key is equivalent to
a nonzero value).  Durations are seconds; days are day numbers. -/
structure AggState where
  perDay : Nat → String → Nat
  monthly : String → Nat

/-- The empty dictionaries. -/
def emptyAgg : AggState :=
  { perDay := fun _ _ => 0, monthly := fun _ => 0 }

/-- Add one day segment of project `proj` to both dictionaries
(the body of the splitting loop). -/
def addSegment (proj : String) (st : AggState) (seg : Segment) : AggState :=
  let dur := seg.segEnd - seg.segStart
  { perDay := fun d p =>
      if d = seg.day ∧ p = proj then st.perDay d p + dur else st.perDay d p
    monthly := fun p =>
      if p = proj then st.monthly p + dur else st.monthly p }

/-- The day segments one interval contributes to the report: clamp to the
window, then split by day; a non-overlapping interval contributes none. -/
def segmentsOf (iv : Interval) (now lo hi : Nat) : List Segment :=
  match clamp_interval iv.start (effectiveEnd iv.stop now) lo hi with
  | none => []
  | some (s, e) => splitDays s e

/-- Process one interval of the `for e in data` loop. -/
def aggStep (now lo hi : Nat) (st : AggState) (iv : Interval) : AggState :=
  (segmentsOf iv now lo hi).foldl (addSegment iv.project) st

/-- Aggregate a list of parsed intervals over the window `[lo, hi)`,
evaluated at instant `now`. -/
def aggregate (l : List Interval) (now lo hi : Nat) : AggState :=
  l.foldl (aggStep now lo hi) emptyAgg

/-! ## Raw ledger records (`cmd_report` including timestamp handling) -/

/-- A raw ledger record as loaded from the JSON file: any of the fields
may be absent (`e.get(...)` returns `None`). -/
structure Record where
  project : Option String
  start : Option String
  stop : Option String
deriving Repr, DecidableEq

/-- `end = datetime.fromisoformat(end_s) if end_s else now`: a falsy
(`None` or empty) `end` means "running until now"; a present but
unparsable `end` raises `ValueError`. -/
def parseEndTime (stop? : Option String) (now : Nat) : Except String Nat :=
  match stop? with
  | none => Except.ok now
  | some es =>
    if es = "" then Except.ok now
    else
      match fromisoformat es with
      | none => Except.error ("Invalid isoformat string: " ++ es)
      | some b => Except.ok b

/-- One iteration of the `for e in data` loop of `cmd_report`, including
timestamp parsing: a falsy (`None` or empty) `start` is skipped
(`continue`), and a present but unparsable timestamp raises `ValueError`
(modelled as `Except.error`), which `cmd_report` does not catch. -/
def reportStep (now lo hi : Nat) (st : AggState) (r : Record) :
    Except String AggState :=
  let proj := r.project.getD "(unknown)"
  match r.start with
  | none => Except.ok st
  | some ss =>
    if ss = "" then Except.ok st
    else
      match fromisoformat ss with
      | none => Except.error ("Invalid isoformat string: " ++ ss)
      | some a =>
        match parseEndTime r.stop now with
        | Except.error e => Except.error e
        | Except.ok b =>
          match clamp_interval a b lo hi with
          | none => Except.ok st
          | some (s, e) => Except.ok ((splitDays s e).foldl (addSegment proj) st)

/-- The `for e in data` loop of `cmd_report`: an uncaught `ValueError`
aborts the whole report. -/
def reportLoop (now lo hi : Nat) : AggState → List Record → Except String AggState
  | st, [] => Except.ok st
  | st, r :: rs =>
    match reportStep now lo hi st r with
    | Except.error e => Except.error e
    | Except.ok st2 => reportLoop now lo hi st2 rs

/-- The whole aggregation pass of `cmd_report` over raw records. -/
def reportAggregate (records : List Record) (now lo hi : Nat) :
    Except String AggState :=
  reportLoop now lo hi emptyAgg records

/-! ## ISO-week grouping (`cmd_report` week layout) -/

/-- Day number of the first of the month (`start_of_month`). -/
def monthStartDay (y m : Nat) : Nat := toDayNumber y m 1

/-- Day number of the first of the following month (`end_of_month`,
the exclusive upper bound of the window). -/
def monthEndDay (y m : Nat) : Nat :=
  if m = 12 then toDayNumber (y + 1) 1 1 else toDayNumber y (m + 1) 1

/-- The ordered list of days of the month (`days` in `cmd_report`). -/
def monthDays (y m : Nat) : List Nat :=
  (List.range (monthEndDay y m - monthStartDay y m)).map
    (fun i => monthStartDay y m + i)

/-- Insert day `d` under ISO-week key `key` into the ordered bucket list
(the `OrderedDict` update of `cmd_report`): append to the existing bucket,
or append a new bucket at the end. -/
def insertDay : List ((Nat × Nat) × List Nat) → (Nat × Nat) → Nat →
    List ((Nat × Nat) × List Nat)
  | [], key, d => [(key, [d])]
  | (k, ds) :: rest, key, d =>
    if k = key then (k, ds ++ [d]) :: rest
    else (k, ds) :: insertDay rest key d

/-- Group a list of days into ISO-week buckets in first-occurrence order
(the `weeks` `OrderedDict` of `cmd_report`). -/
def groupByIsoWeek (days : List Nat) : List ((Nat × Nat) × List Nat) :=
  days.foldl (fun w d => insertDay w (isoYearWeek d) d) []

/-- Total duration (in seconds) of a list of day segments. -/
def durSum (segs : List Segment) : Nat :=
  (segs.map (fun sg => sg.segEnd - sg.segStart)).sum

/-! ## Lemmas about the day-splitting loop -/

theorem lt_day_span (t : Nat) : t < day_span t := by
  unfold day_span; omega

theorem day_span_div (t : Nat) : day_span t / 86400 = t / 86400 + 1 := by
  unfold day_span; omega

theorem splitGo_self (fuel e : Nat) : splitGo fuel e e = [] := by
  cases fuel <;> simp [splitGo]

theorem splitGo_durSum :
    ∀ fuel s e : Nat, e / 86400 < s / 86400 + fuel →
      durSum (splitGo fuel s e) = e - s := by
  intro fuel
  induction fuel with
  | zero =>
    intro s e h
    simp only [splitGo, durSum, List.map_nil, List.sum_nil]
    omega
  | succ n ih =>
    intro s e h
    by_cases hlt : s < e
    · simp only [splitGo, if_pos hlt, durSum, List.map_cons, List.sum_cons]
      have hds := lt_day_span s
      by_cases hm : day_span s ≤ e
      · rw [min_eq_right hm]
        have htail : durSum (splitGo n (day_span s) e) = e - day_span s := by
          apply ih
          rw [day_span_div]
          omega
        simp only [durSum] at htail
        rw [htail]
        omega
      · rw [min_eq_left (by omega)]
        rw [splitGo_self]
        simp only [List.map_nil, List.sum_nil]
        omega
    · simp only [splitGo, if_neg hlt, durSum, List.map_nil, List.sum_nil]
      omega

theorem splitGo_mem :
    ∀ fuel s e : Nat, ∀ sg ∈ splitGo fuel s e,
      sg.day = sg.segStart / 86400 ∧ sg.segStart < sg.segEnd ∧
      sg.segEnd ≤ day_span sg.segStart ∧ s ≤ sg.segStart ∧ sg.segEnd ≤ e := by
  intro fuel
  induction fuel with
  | zero => intro s e sg h; simp [splitGo] at h
  | succ n ih =>
    intro s e sg h
    by_cases hlt : s < e
    · simp only [splitGo, if_pos hlt, List.mem_cons] at h
      have hds := lt_day_span s
      rcases h with rfl | h
      · refine ⟨rfl, ?_, ?_, le_refl _, ?_⟩
        · show s < min e (day_span s)
          omega
        · show min e (day_span s) ≤ day_span s
          omega
        · show min e (day_span s) ≤ e
          omega
      · have h2 := ih _ _ sg h
        refine ⟨h2.1, h2.2.1, h2.2.2.1, ?_, h2.2.2.2.2⟩
        have : s ≤ min e (day_span s) := by omega
        exact le_trans this h2.2.2.2.1
    · simp [splitGo, hlt] at h

theorem splitGo_head :
    ∀ fuel s e : Nat, ∀ sg ∈ (splitGo fuel s e).head?, sg.segStart = s := by
  intro fuel s e sg h
  cases fuel with
  | zero => simp [splitGo] at h
  | succ n =>
    by_cases hlt : s < e
    · simp only [splitGo, if_pos hlt, List.head?_cons, Option.mem_def,
        Option.some.injEq] at h
      rw [← h]
    · simp [splitGo, hlt] at h

theorem splitGo_chain :
    ∀ fuel s e : Nat,
      List.Chain' (fun a b => a.segEnd = b.segStart) (splitGo fuel s e) := by
  intro fuel
  induction fuel with
  | zero => intro s e; simp [splitGo]
  | succ n ih =>
    intro s e
    by_cases hlt : s < e
    · simp only [splitGo, if_pos hlt]
      refine List.chain'_cons'.mpr ⟨?_, ih _ _⟩
      intro y hy
      exact (splitGo_head n _ _ y hy).symm
    · simp [splitGo, hlt]

theorem splitDays_fuel (s e : Nat) :
    e / 86400 < s / 86400 + (e / 86400 + 1 - s / 86400) := by omega

theorem splitDays_durSum (s e : Nat) : durSum (splitDays s e) = e - s :=
  splitGo_durSum _ s e (splitDays_fuel s e)

theorem splitDays_mem (s e : Nat) :
    ∀ sg ∈ splitDays s e,
      sg.day = sg.segStart / 86400 ∧ sg.segStart < sg.segEnd ∧
      sg.segEnd ≤ day_span sg.segStart ∧ s ≤ sg.segStart ∧ sg.segEnd ≤ e :=
  splitGo_mem _ s e

/-- C2: for every clamped interval with `s < e`, splitting by day yields a
nonempty chronological list of segments whose durations sum exactly to
`e - s`, every segment has strictly positive duration, and no segment
crosses the next midnight after its start (so none spans more than one
calendar day). -/
theorem splitDays_split_sum (s e : Nat) (h : s < e) :
    durSum (splitDays s e) = e - s ∧
    splitDays s e ≠ [] ∧
    (∀ sg ∈ splitDays s e, 0 < sg.segEnd - sg.segStart) ∧
    (∀ sg ∈ splitDays s e,
      sg.day = sg.segStart / 86400 ∧ sg.segEnd ≤ day_span sg.segStart) ∧
    List.Chain' (fun a b => a.segEnd = b.segStart) (splitDays s e) := by
  refine ⟨splitDays_durSum s e, ?_, ?_, ?_, splitGo_chain _ s e⟩
  · unfold splitDays
    have hf : e / 86400 + 1 - s / 86400 ≠ 0 := by omega
    obtain ⟨n, hn⟩ : ∃ n, e / 86400 + 1 - s / 86400 = n + 1 :=
      ⟨e / 86400 - s / 86400, by omega⟩
    rw [hn]
    simp [splitGo, h]
  · intro sg hsg
    have h2 := splitDays_mem s e sg hsg
    omega
  · intro sg hsg
    have h2 := splitDays_mem s e sg hsg
    exact ⟨h2.1, h2.2.2.1⟩

/-- Witness for C2 at the concrete clamped range from noon of day 0 to
midnight starting day 3. -/
theorem splitDays_split_sum_witness :
    durSum (splitDays 43200 259200) = 259200 - 43200 ∧
    splitDays 43200 259200 ≠ [] ∧
    (∀ sg ∈ splitDays 43200 259200, 0 < sg.segEnd - sg.segStart) ∧
    (∀ sg ∈ splitDays 43200 259200,
      sg.day = sg.segStart / 86400 ∧ sg.segEnd ≤ day_span sg.segStart) ∧
    List.Chain' (fun a b => a.segEnd = b.segStart) (splitDays 43200 259200) :=
  splitDays_split_sum 43200 259200 (by decide)

/-! ## Lemmas about the window clamp -/

theorem clamp_interval_some (a b lo hi s e : Nat)
    (h : clamp_interval a b lo hi = some (s, e)) :
    s = max a lo ∧ e = min b hi ∧ s < e := by
  simp only [clamp_interval] at h
  split at h
  · cases h
  · rename_i hc
    cases h
    exact ⟨rfl, rfl, by omega⟩

/-- C3: clamping takes `effective_end = end if present else now`, and
returns `(max(start, window_start), min(effective_end, window_end))` when
that range is nonempty, `None` when `min ≤ max`; an interval entirely
before or after the window contributes zero segments. -/
theorem clamp_interval_spec (a : Nat) (b? : Option Nat) (now lo hi : Nat) :
    (max a lo < min (effectiveEnd b? now) hi →
      clamp_interval a (effectiveEnd b? now) lo hi
        = some (max a lo, min (effectiveEnd b? now) hi)) ∧
    (min (effectiveEnd b? now) hi ≤ max a lo →
      clamp_interval a (effectiveEnd b? now) lo hi = none) ∧
    (effectiveEnd b? now ≤ lo ∨ hi ≤ a →
      ∀ p, segmentsOf ⟨p, a, b?⟩ now lo hi = []) := by
  refine ⟨?_, ?_, ?_⟩
  · intro h
    simp only [clamp_interval]
    rw [if_neg (by omega)]
  · intro h
    simp only [clamp_interval]
    rw [if_pos h]
  · intro h p
    have hc : clamp_interval a (effectiveEnd b? now) lo hi = none := by
      simp only [clamp_interval]
      rw [if_pos (by omega)]
    simp [segmentsOf, hc]

/-- Witness for C3: an overlapping interval, a non-overlapping one, and an
interval entirely after the window. -/
theorem clamp_interval_spec_witness :
    clamp_interval 5 (effectiveEnd (some 10) 0) 3 8
      = some (max 5 3, min (effectiveEnd (some 10) 0) 8) ∧
    clamp_interval 20 (effectiveEnd (some 30) 0) 0 8 = none ∧
    segmentsOf ⟨"p", 20, some 30⟩ 0 0 8 = [] :=
  ⟨(clamp_interval_spec 5 (some 10) 0 3 8).1 (by decide),
   (clamp_interval_spec 20 (some 30) 0 0 8).2.1 (by decide),
   (clamp_interval_spec 20 (some 30) 0 0 8).2.2 (Or.inr (by decide)) "p"⟩

/-! ## Lemmas about the duration scanner -/

theorem scanChar_digit (st : ScanState) (c : Char) (h : c.isDigit = true) :
    scanChar st c = Except.ok { st with num := st.num ++ [c] } := by
  simp [scanChar, h]

theorem scanChar_colon (st : ScanState) : scanChar st ':' = Except.ok st := by
  unfold scanChar
  rw [if_neg (by decide), if_neg (by decide), if_pos rfl]

theorem scanAll_digits :
    ∀ ds : List Char, (∀ c ∈ ds, c.isDigit = true) →
      ∀ st : ScanState, scanAll st ds = Except.ok { st with num := st.num ++ ds } := by
  intro ds
  induction ds with
  | nil => intro _ st; simp [scanAll]
  | cons c cs ih =>
    intro h st
    have hc : c.isDigit = true := h c (List.mem_cons_self c cs)
    simp only [scanAll, scanChar_digit st c hc]
    rw [ih (fun x hx => h x (List.mem_cons_of_mem c hx))]
    simp

theorem scanAll_append :
    ∀ (cs ds : List Char) (st : ScanState),
      scanAll st (cs ++ ds) =
        match scanAll st cs with
        | Except.error e => Except.error e
        | Except.ok st2 => scanAll st2 ds := by
  intro cs
  induction cs with
  | nil => intro ds st; simp [scanAll]
  | cons c cs ih =>
    intro ds st
    simp only [List.cons_append, scanAll]
    cases scanChar st c with
    | error e => simp
    | ok st2 => simp [ih]

/-- C6: the duration-parser test vectors.  `"1h30m"`, `"45m"`, `"90"`
parse to 90, 45 and 90 minutes; `"3.5"` is rejected by `parse_duration`
but the plain-hours path of `cmd_log` reads it as 210 minutes; `"0"`,
`"h30m"` and `"1x"` all fail with an error. -/
theorem parse_duration_vectors :
    parse_duration "1h30m" = Except.ok 90 ∧
    parse_duration "45m" = Except.ok 45 ∧
    parse_duration "90" = Except.ok 90 ∧
    parse_duration "3.5" = Except.error "Unsupported character in duration: ." ∧
    cmd_log_minutes "3.5" = Except.ok 210 ∧
    parse_duration "0" = Except.error "Duration must be > 0" ∧
    parse_duration "h30m" = Except.error "Missing number before unit" ∧
    parse_duration "1x" = Except.error "Unsupported character in duration: x" := by
  refine ⟨by decide, by decide, by decide, by decide, ?_, by decide, by decide,
    by decide⟩
  have h1 : pyStrip "3.5".data = ['3', '.', '5'] := by decide
  have h2 : isPlainNumber ['3', '.', '5'] = true := by decide
  have h3 : splitAtDot ['3', '.', '5'] = (['3'], ['5']) := by decide
  have h4 : natOfDigitChars ['3'] = 3 := by decide
  have h5 : natOfDigitChars ['5'] = 5 := by decide
  simp only [cmd_log_minutes, h1, h2, if_true, decimalValue, h3, h4, h5]
  norm_num

/-- C7 counterexample: `parse_duration("1h90")` does not return 150
minutes. -/
theorem parse_duration_1h90_not_150 :
    parse_duration "1h90" ≠ Except.ok 150 := by decide

/-- C7 amended: a trailing bare digit run after a unit is dropped, not
added as minutes — once the scan has seen a unit, appending trailing
digits leaves the result unchanged; in particular
`parse_duration("1h90")` returns 60 minutes. -/
theorem trailing_digits_dropped :
    (∀ (cs ds : List Char) (st : ScanState),
      scanAll ⟨0, [], false⟩ cs = Except.ok st → st.hadUnit = true →
      (∀ c ∈ ds, c.isDigit = true) →
      durationOfChars (cs ++ ds) = durationOfChars cs) ∧
    parse_duration "1h90" = Except.ok 60 := by
  constructor
  · intro cs ds st hscan hunit hds
    have h1 : scanAll ⟨0, [], false⟩ (cs ++ ds)
        = Except.ok { st with num := st.num ++ ds } := by
      rw [scanAll_append, hscan]
      exact scanAll_digits ds hds st
    unfold durationOfChars
    rw [h1, hscan]
    simp [hunit]
  · decide

/-- Witness for C7: the scan of `"1h"` ends in a unit-seen state, so the
trailing digits of `"1h90"` contribute nothing. -/
theorem trailing_digits_dropped_witness :
    durationOfChars (['1', 'h'] ++ ['9', '0']) = durationOfChars ['1', 'h'] :=
  trailing_digits_dropped.1 ['1', 'h'] ['9', '0'] ⟨60, [], true⟩
    (by decide) rfl (by decide)

/-- C10: a colon is skipped without resetting the pending digit run, so
two digit runs separated by a colon behave exactly as their concatenation;
in particular `parse_duration("12:30")` returns 1230 minutes, not 12 hours
30 minutes. -/
theorem colon_concatenates_digits :
    (∀ cs1 cs2 : List Char,
      (∀ c ∈ cs1, c.isDigit = true) → (∀ c ∈ cs2, c.isDigit = true) →
      durationOfChars (cs1 ++ ':' :: cs2) = durationOfChars (cs1 ++ cs2)) ∧
    parse_duration "12:30" = Except.ok 1230 := by
  constructor
  · intro cs1 cs2 h1 h2
    have e1 : scanAll (⟨0, [], false⟩ : ScanState) (cs1 ++ ':' :: cs2)
        = Except.ok ⟨0, cs1 ++ cs2, false⟩ := by
      rw [scanAll_append, scanAll_digits cs1 h1]
      show scanAll ⟨0, [] ++ cs1, false⟩ (':' :: cs2) = _
      simp only [List.nil_append]
      simp only [scanAll, scanChar_colon]
      rw [scanAll_digits cs2 h2]
    have e2 : scanAll (⟨0, [], false⟩ : ScanState) (cs1 ++ cs2)
        = Except.ok ⟨0, cs1 ++ cs2, false⟩ := by
      have hall : ∀ c ∈ cs1 ++ cs2, c.isDigit = true := by
        intro c hc
        rcases List.mem_append.mp hc with h | h
        exacts [h1 c h, h2 c h]
      rw [scanAll_digits _ hall]
      simp
    unfold durationOfChars
    rw [e1, e2]
  · decide

/-- Witness for C10 at the digit runs of `"12:30"`. -/
theorem colon_concatenates_digits_witness :
    durationOfChars (['1', '2'] ++ ':' :: ['3', '0'])
      = durationOfChars (['1', '2'] ++ ['3', '0']) :=
  colon_concatenates_digits.1 ['1', '2'] ['3', '0'] (by decide) (by decide)

/-! ## Timestamp handling in the report loop -/

/-- C1 counterexample: a record whose `start` string is present but not
parsable makes the aggregation raise (`Except.error`), it is not silently
skipped; while a record with a *missing end* is not skipped either — it is
aggregated as running until `now` (here 15 minutes of `"alpha"`). -/
theorem report_unparsable_raises :
    (reportAggregate [⟨some "alpha", some "not-a-date", none⟩]
        1000 0 500000).isOk = false ∧
    Except.map (fun st => st.monthly "alpha")
        (reportAggregate [⟨some "alpha", some "2024-03-10T23:30:00", none⟩]
          (toSec 2024 3 10 23 45 0) (toSec 2024 3 1 0 0 0)
          (toSec 2024 4 1 0 0 0))
      = Except.ok 900 := by
  constructor
  · decide
  · have h1 : fromisoformat "2024-03-10T23:30:00" = some (toSec 2024 3 10 23 30 0) := by
      decide
    simp only [reportAggregate, reportLoop, reportStep, h1, parseEndTime]
    have h2 : clamp_interval (toSec 2024 3 10 23 30 0) (toSec 2024 3 10 23 45 0)
        (toSec 2024 3 1 0 0 0) (toSec 2024 4 1 0 0 0)
        = some (toSec 2024 3 10 23 30 0, toSec 2024 3 10 23 45 0) := by decide
    rw [if_neg (show ¬("2024-03-10T23:30:00" = "") from by decide)]
    simp only [h2]
    decide

/-- C1 amended: in the report loop a record with a falsy (missing or
empty) `start` is silently skipped; a present but unparsable `start`, or a
present, nonempty but unparsable `end`, raises an error that aborts
aggregation (it is not skipped); records whose timestamps parse are
aggregated normally, a missing `end` meaning "running until `now`". -/
theorem reportStep_cases (now lo hi : Nat) (st : AggState) (r : Record) :
    ((r.start = none ∨ r.start = some "") →
      reportStep now lo hi st r = Except.ok st) ∧
    (∀ s, r.start = some s → s ≠ "" → fromisoformat s = none →
      reportStep now lo hi st r
        = Except.error ("Invalid isoformat string: " ++ s)) ∧
    (∀ s a es, r.start = some s → fromisoformat s = some a →
      r.stop = some es → es ≠ "" → fromisoformat es = none →
      reportStep now lo hi st r
        = Except.error ("Invalid isoformat string: " ++ es)) ∧
    (∀ s a, r.start = some s → fromisoformat s = some a → r.stop = none →
      reportStep now lo hi st r
        = Except.ok (aggStep now lo hi st ⟨r.project.getD "(unknown)", a, none⟩)) ∧
    (∀ s a es b, r.start = some s → fromisoformat s = some a →
      r.stop = some es → es ≠ "" → fromisoformat es = some b →
      reportStep now lo hi st r
        = Except.ok (aggStep now lo hi st ⟨r.project.getD "(unknown)", a, some b⟩)) := by
  refine ⟨?_, ?_, ?_, ?_, ?_⟩
  · rintro (h | h) <;> simp [reportStep, h]
  · intro s hs hne hparse
    simp [reportStep, hs, hne, hparse]
  · intro s a es hs hparse hes hesne hesparse
    have hsne : s ≠ "" := by
      intro hcon
      rw [hcon] at hparse
      exact Option.noConfusion ((by decide : fromisoformat "" = none) ▸ hparse)
    simp [reportStep, hs, hsne, hparse, parseEndTime, hes, hesne, hesparse]
  · intro s a hs hparse hstop
    have hsne : s ≠ "" := by
      intro hcon
      rw [hcon] at hparse
      exact Option.noConfusion ((by decide : fromisoformat "" = none) ▸ hparse)
    simp only [reportStep, hs, hsne, if_neg hsne, hparse, parseEndTime, hstop]
    simp only [aggStep, segmentsOf, effectiveEnd, Option.getD_none]
    cases hc : clamp_interval a now lo hi with
    | none => simp
    | some p =>
      obtain ⟨s2, e2⟩ := p
      simp
  · intro s a es b hs hparse hes hesne hesparse
    have hsne : s ≠ "" := by
      intro hcon
      rw [hcon] at hparse
      exact Option.noConfusion ((by decide : fromisoformat "" = none) ▸ hparse)
    simp only [reportStep, hs, hsne, if_neg hsne, hparse, parseEndTime, hes,
      if_neg hesne, hesparse]
    simp only [aggStep, segmentsOf, effectiveEnd, Option.getD_some]
    cases hc : clamp_interval a b lo hi with
    | none => simp
    | some p =>
      obtain ⟨s2, e2⟩ := p
      simp

/-- Witness for C1: a record with missing `start` is skipped, and a record
with an unparsable `start` string raises. -/
theorem reportStep_cases_witness :
    reportStep 0 0 0 emptyAgg ⟨some "p", none, none⟩ = Except.ok emptyAgg ∧
    reportStep 0 0 0 emptyAgg ⟨some "p", some "zzz", none⟩
      = Except.error ("Invalid isoformat string: " ++ "zzz") :=
  ⟨(reportStep_cases 0 0 0 emptyAgg ⟨some "p", none, none⟩).1 (Or.inl rfl),
   (reportStep_cases 0 0 0 emptyAgg ⟨some "p", some "zzz", none⟩).2.1 "zzz"
     rfl (by decide) (by decide)⟩

/-! ## Characterisation of the aggregation dictionaries -/

/-- What one segment contributes to `per_day_totals[d][p]`. -/
def segContrib (proj : String) (d : Nat) (p : String) (sg : Segment) : Nat :=
  if d = sg.day ∧ p = proj then sg.segEnd - sg.segStart else 0

/-- What one segment contributes to `monthly_project_totals[p]`. -/
def projContrib (proj p : String) (sg : Segment) : Nat :=
  if p = proj then sg.segEnd - sg.segStart else 0

theorem foldl_addSegment_perDay (proj : String) (segs : List Segment) :
    ∀ (st : AggState) (d : Nat) (p : String),
      (segs.foldl (addSegment proj) st).perDay d p
        = st.perDay d p + (segs.map (segContrib proj d p)).sum := by
  induction segs with
  | nil => intro st d p; simp
  | cons sg tl ih =>
    intro st d p
    simp only [List.foldl_cons, List.map_cons, List.sum_cons]
    rw [ih]
    have hstep : (addSegment proj st sg).perDay d p
        = st.perDay d p + segContrib proj d p sg := by
      simp only [addSegment, segContrib]
      by_cases hc : d = sg.day ∧ p = proj
      · rw [if_pos hc, if_pos hc]
      · rw [if_neg hc, if_neg hc, Nat.add_zero]
    rw [hstep]
    omega

theorem foldl_addSegment_monthly (proj : String) (segs : List Segment) :
    ∀ (st : AggState) (p : String),
      (segs.foldl (addSegment proj) st).monthly p
        = st.monthly p + (segs.map (projContrib proj p)).sum := by
  induction segs with
  | nil => intro st p; simp
  | cons sg tl ih =>
    intro st p
    simp only [List.foldl_cons, List.map_cons, List.sum_cons]
    rw [ih]
    have hstep : (addSegment proj st sg).monthly p
        = st.monthly p + projContrib proj p sg := by
      simp only [addSegment, projContrib]
      by_cases hc : p = proj
      · rw [if_pos hc, if_pos hc]
      · rw [if_neg hc, if_neg hc, Nat.add_zero]
    rw [hstep]
    omega

theorem foldl_aggStep_perDay (now lo hi : Nat) (l : List Interval) :
    ∀ (st : AggState) (d : Nat) (p : String),
      (l.foldl (aggStep now lo hi) st).perDay d p
        = st.perDay d p
          + (l.map (fun iv =>
              ((segmentsOf iv now lo hi).map (segContrib iv.project d p)).sum)).sum := by
  induction l with
  | nil => intro st d p; simp
  | cons iv tl ih =>
    intro st d p
    simp only [List.foldl_cons, List.map_cons, List.sum_cons]
    rw [ih]
    simp only [aggStep]
    rw [foldl_addSegment_perDay]
    omega

theorem foldl_aggStep_monthly (now lo hi : Nat) (l : List Interval) :
    ∀ (st : AggState) (p : String),
      (l.foldl (aggStep now lo hi) st).monthly p
        = st.monthly p
          + (l.map (fun iv =>
              ((segmentsOf iv now lo hi).map (projContrib iv.project p)).sum)).sum := by
  induction l with
  | nil => intro st p; simp
  | cons iv tl ih =>
    intro st p
    simp only [List.foldl_cons, List.map_cons, List.sum_cons]
    rw [ih]
    simp only [aggStep]
    rw [foldl_addSegment_monthly]
    omega

theorem aggregate_perDay (l : List Interval) (now lo hi d : Nat) (p : String) :
    (aggregate l now lo hi).perDay d p
      = (l.map (fun iv =>
          ((segmentsOf iv now lo hi).map (segContrib iv.project d p)).sum)).sum := by
  have h := foldl_aggStep_perDay now lo hi l emptyAgg d p
  simpa [aggregate, emptyAgg] using h

theorem aggregate_monthly (l : List Interval) (now lo hi : Nat) (p : String) :
    (aggregate l now lo hi).monthly p
      = (l.map (fun iv =>
          ((segmentsOf iv now lo hi).map (projContrib iv.project p)).sum)).sum := by
  have h := foldl_aggStep_monthly now lo hi l emptyAgg p
  simpa [aggregate, emptyAgg] using h

/-- C5: permuting the input interval list changes neither aggregation
dictionary. -/
theorem aggregate_perm_invariant (l l2 : List Interval) (hp : l.Perm l2)
    (now lo hi : Nat) :
    (aggregate l now lo hi).perDay = (aggregate l2 now lo hi).perDay ∧
    (aggregate l now lo hi).monthly = (aggregate l2 now lo hi).monthly := by
  constructor
  · funext d p
    rw [aggregate_perDay, aggregate_perDay]
    exact List.Perm.sum_eq (hp.map _)
  · funext p
    rw [aggregate_monthly, aggregate_monthly]
    exact List.Perm.sum_eq (hp.map _)

/-- A two-hour `alpha` session and a 45-minute `beta` session on day 0. -/
def ivAlpha : Interval := ⟨"alpha", 32400, some 39600⟩

def ivBeta : Interval := ⟨"beta", 39600, some 42300⟩

/-- Witness for C5: swapping two concrete intervals. -/
theorem aggregate_perm_invariant_witness :
    (aggregate [ivAlpha, ivBeta] 0 0 86400).perDay
      = (aggregate [ivBeta, ivAlpha] 0 0 86400).perDay ∧
    (aggregate [ivAlpha, ivBeta] 0 0 86400).monthly
      = (aggregate [ivBeta, ivAlpha] 0 0 86400).monthly :=
  aggregate_perm_invariant [ivAlpha, ivBeta] [ivBeta, ivAlpha]
    (List.Perm.swap ivBeta ivAlpha []) 0 0 86400

/-! ## Day/month cross-check -/

theorem sum_range_map_sum {α : Type} (N : Nat) (L : List α) (f : Nat → α → Nat) :
    ∑ d ∈ Finset.range N, (L.map (f d)).sum
      = (L.map (fun x => ∑ d ∈ Finset.range N, f d x)).sum := by
  induction L with
  | nil => simp
  | cons x xs ih => simp [Finset.sum_add_distrib, ih]

theorem segmentsOf_day_lt (iv : Interval) (now lo hi N : Nat)
    (hN : hi ≤ 86400 * N) :
    ∀ sg ∈ segmentsOf iv now lo hi, sg.day < N := by
  intro sg hsg
  unfold segmentsOf at hsg
  cases hc : clamp_interval iv.start (effectiveEnd iv.stop now) lo hi with
  | none => rw [hc] at hsg; simp at hsg
  | some p =>
    obtain ⟨s, e⟩ := p
    rw [hc] at hsg
    have hm := splitDays_mem s e sg hsg
    have hce := (clamp_interval_some _ _ _ _ _ _ hc).2.1
    have : sg.segStart < hi := by
      have h1 : sg.segStart < sg.segEnd := hm.2.1
      have h2 : sg.segEnd ≤ e := hm.2.2.2.2
      omega
    rw [hm.1]
    omega

theorem sum_segContrib (proj p : String) (sg : Segment) (N : Nat)
    (h : sg.day < N) :
    ∑ d ∈ Finset.range N, segContrib proj d p sg = projContrib proj p sg := by
  by_cases hp : p = proj
  · simp only [segContrib, projContrib, hp, and_true, if_pos]
    rw [Finset.sum_ite_eq' (Finset.range N) sg.day
      (fun _ => sg.segEnd - sg.segStart)]
    simp [Finset.mem_range, h]
  · simp [segContrib, projContrib, hp]

/-- C4: for every interval list, window and project, the per-day totals
summed over all days equal the monthly total (`Finset.range N` covers
every day that can receive a contribution once `hi ≤ 86400 * N`). -/
theorem per_day_month_cross (l : List Interval) (now lo hi N : Nat)
    (p : String) (hN : hi ≤ 86400 * N) :
    ∑ d ∈ Finset.range N, (aggregate l now lo hi).perDay d p
      = (aggregate l now lo hi).monthly p := by
  rw [Finset.sum_congr rfl (fun d _ => aggregate_perDay l now lo hi d p)]
  rw [aggregate_monthly]
  rw [sum_range_map_sum]
  apply congrArg List.sum
  apply List.map_congr_left
  intro iv _
  rw [sum_range_map_sum]
  apply congrArg List.sum
  apply List.map_congr_left
  intro sg hsg
  exact sum_segContrib iv.project p sg N (segmentsOf_day_lt iv now lo hi N hN sg hsg)

/-- Witness for C4 over a two-day window. -/
theorem per_day_month_cross_witness :
    ∑ d ∈ Finset.range 2, (aggregate [ivAlpha] 0 0 172800).perDay d "alpha"
      = (aggregate [ivAlpha] 0 0 172800).monthly "alpha" :=
  per_day_month_cross [ivAlpha] 0 0 172800 2 "alpha" (by decide)

/-! ## Midnight boundary scenario -/

/-- The 2024-03-10 23:30 → 2024-03-11 01:00 interval of the
midnight-boundary scenario. -/
def ivMidnight : Interval :=
  ⟨"p", toSec 2024 3 10 23 30 0, some (toSec 2024 3 11 1 0 0)⟩

/-- C8: the interval 2024-03-10 23:30 → 2024-03-11 01:00 splits into
exactly a 30-minute segment on day 2024-03-10 and a 60-minute segment on
day 2024-03-11, aggregation attributes 1800 s and 3600 s to those days,
and in general a segment that starts exactly at a local midnight is
attributed to the day that midnight begins (`86400 * day = segStart`). -/
theorem midnight_boundary_split :
    segmentsOf ivMidnight (toSec 2024 3 15 10 0 0) (toSec 2024 3 1 0 0 0)
        (toSec 2024 4 1 0 0 0)
      = [⟨toDayNumber 2024 3 10, toSec 2024 3 10 23 30 0, toSec 2024 3 11 0 0 0⟩,
         ⟨toDayNumber 2024 3 11, toSec 2024 3 11 0 0 0, toSec 2024 3 11 1 0 0⟩] ∧
    (aggregate [ivMidnight] (toSec 2024 3 15 10 0 0) (toSec 2024 3 1 0 0 0)
        (toSec 2024 4 1 0 0 0)).perDay (toDayNumber 2024 3 10) "p" = 1800 ∧
    (aggregate [ivMidnight] (toSec 2024 3 15 10 0 0) (toSec 2024 3 1 0 0 0)
        (toSec 2024 4 1 0 0 0)).perDay (toDayNumber 2024 3 11) "p" = 3600 ∧
    (∀ s e : Nat, ∀ sg ∈ splitDays s e, 86400 ∣ sg.segStart →
      86400 * sg.day = sg.segStart) := by
  refine ⟨by decide, by decide, by decide, ?_⟩
  intro s e sg hsg hdvd
  have h := (splitDays_mem s e sg hsg).1
  rw [h]
  omega

/-- Witness for C8: the second segment of the scenario starts exactly at
the midnight beginning 2024-03-11 and is attributed to that day. -/
theorem midnight_boundary_split_witness :
    86400 * (⟨toDayNumber 2024 3 11, toSec 2024 3 11 0 0 0,
        toSec 2024 3 11 1 0 0⟩ : Segment).day
      = (⟨toDayNumber 2024 3 11, toSec 2024 3 11 0 0 0,
          toSec 2024 3 11 1 0 0⟩ : Segment).segStart :=
  midnight_boundary_split.2.2.2 (toSec 2024 3 10 23 30 0)
    (toSec 2024 3 11 1 0 0) _ (by decide) (by decide)

/-! ## ISO-week grouping invariants -/

/-- All days stored in a bucket list, in bucket order. -/
def weekElems (w : List ((Nat × Nat) × List Nat)) : List Nat :=
  (w.map Prod.snd).flatten

theorem weekElems_cons (b : (Nat × Nat) × List Nat)
    (tl : List ((Nat × Nat) × List Nat)) :
    weekElems (b :: tl) = b.2 ++ weekElems tl := by
  simp [weekElems]

/-- Every bucket is nonempty and lists its days in ascending order. -/
def bucketsOk (w : List ((Nat × Nat) × List Nat)) : Prop :=
  ∀ b ∈ w, b.2 ≠ [] ∧ b.2.Pairwise (· < ·)

/-- The buckets' first days are strictly increasing. -/
def firstsOk (w : List ((Nat × Nat) × List Nat)) : Prop :=
  (w.map (fun b => b.2.headI)).Pairwise (· < ·)

theorem insertDay_elems (w : List ((Nat × Nat) × List Nat)) (k : Nat × Nat)
    (d : Nat) : (weekElems (insertDay w k d)).Perm (weekElems w ++ [d]) := by
  induction w with
  | nil => exact List.Perm.refl _
  | cons b tl ih =>
    obtain ⟨k0, ds⟩ := b
    by_cases hk : k0 = k
    · simp only [insertDay, if_pos hk, weekElems_cons]
      rw [List.append_assoc, List.append_assoc]
      exact List.Perm.append_left ds List.perm_append_comm
    · simp only [insertDay, if_neg hk, weekElems_cons]
      rw [List.append_assoc]
      exact List.Perm.append_left ds ih

theorem groupFold_elems :
    ∀ (l : List Nat) (w : List ((Nat × Nat) × List Nat)),
      (weekElems (l.foldl (fun w d => insertDay w (isoYearWeek d) d) w)).Perm
        (weekElems w ++ l) := by
  intro l
  induction l with
  | nil => intro w; simp
  | cons d tl ih =>
    intro w
    simp only [List.foldl_cons]
    refine (ih (insertDay w (isoYearWeek d) d)).trans ?_
    refine ((insertDay_elems w (isoYearWeek d) d).append_right tl).trans ?_
    rw [List.append_assoc]
    exact List.Perm.refl _

theorem headI_append_single (ds : List Nat) (d : Nat) (h : ds ≠ []) :
    (ds ++ [d]).headI = ds.headI := by
  cases ds with
  | nil => exact absurd rfl h
  | cons a tl => rfl

theorem headI_mem_self (ds : List Nat) (h : ds ≠ []) : ds.headI ∈ ds := by
  cases ds with
  | nil => exact absurd rfl h
  | cons a tl => simp

theorem insertDay_firsts (k : Nat × Nat) (d : Nat) :
    ∀ w, (∀ b ∈ w, b.2 ≠ []) →
      ((insertDay w k d).map (fun b => b.2.headI)
          = w.map (fun b => b.2.headI) ∨
       (insertDay w k d).map (fun b => b.2.headI)
          = w.map (fun b => b.2.headI) ++ [d]) := by
  intro w
  induction w with
  | nil => intro _; right; simp [insertDay]
  | cons b tl ih =>
    obtain ⟨k0, ds⟩ := b
    intro hne
    by_cases hk : k0 = k
    · left
      simp only [insertDay, if_pos hk, List.map_cons]
      rw [headI_append_single ds d (hne (k0, ds) (List.mem_cons_self _ _))]
    · simp only [insertDay, if_neg hk, List.map_cons]
      rcases ih (fun b hb => hne b (List.mem_cons_of_mem _ hb)) with h | h
      · left; rw [h]
      · right; rw [h]; simp

theorem insertDay_inv (k : Nat × Nat) (d : Nat) :
    ∀ w, bucketsOk w → firstsOk w → (∀ x ∈ weekElems w, x < d) →
      bucketsOk (insertDay w k d) ∧ firstsOk (insertDay w k d) := by
  intro w
  induction w with
  | nil =>
    intro _ _ _
    constructor
    · intro b hb
      simp only [insertDay, List.mem_cons, List.not_mem_nil, or_false] at hb
      rw [hb]
      exact ⟨by simp, by simp⟩
    · simp [insertDay, firstsOk]
  | cons b0 tl ih =>
    obtain ⟨k0, ds⟩ := b0
    intro hb hf hlt
    have hds : ds ≠ [] := (hb (k0, ds) (List.mem_cons_self _ _)).1
    have hdss : ds.Pairwise (· < ·) := (hb (k0, ds) (List.mem_cons_self _ _)).2
    have hbtl : bucketsOk tl := fun b hbm => hb b (List.mem_cons_of_mem _ hbm)
    have hf2 : (∀ z ∈ tl.map (fun b => b.2.headI), ds.headI < z) ∧ firstsOk tl := by
      have h := hf
      rw [firstsOk, List.map_cons, List.pairwise_cons] at h
      exact h
    have hlt_ds : ∀ x ∈ ds, x < d := fun x hx =>
      hlt x (by rw [weekElems_cons]; exact List.mem_append_left _ hx)
    have hlt_tl : ∀ x ∈ weekElems tl, x < d := fun x hx =>
      hlt x (by rw [weekElems_cons]; exact List.mem_append_right _ hx)
    by_cases hk : k0 = k
    · constructor
      · intro b hbm
        simp only [insertDay, if_pos hk, List.mem_cons] at hbm
        rcases hbm with rfl | hbm
        · refine ⟨by simp, ?_⟩
          rw [List.pairwise_append]
          refine ⟨hdss, by simp, ?_⟩
          intro x hx z hz
          have hz2 : z = d := by simpa using hz
          rw [hz2]
          exact hlt_ds x hx
        · exact hbtl b hbm
      · simp only [insertDay, if_pos hk, firstsOk, List.map_cons]
        rw [headI_append_single ds d hds]
        have h := hf
        rw [firstsOk, List.map_cons] at h
        exact h
    · constructor
      · intro b hbm
        simp only [insertDay, if_neg hk, List.mem_cons] at hbm
        rcases hbm with rfl | hbm
        · exact ⟨hds, hdss⟩
        · exact (ih hbtl hf2.2 hlt_tl).1 b hbm
      · simp only [insertDay, if_neg hk, firstsOk, List.map_cons]
        rw [List.pairwise_cons]
        constructor
        · intro z hz
          rcases insertDay_firsts k d tl (fun b hbm => (hbtl b hbm).1) with h | h
          · rw [h] at hz
            exact hf2.1 z hz
          · rw [h] at hz
            rcases List.mem_append.mp hz with hz2 | hz2
            · exact hf2.1 z hz2
            · have hz3 : z = d := by simpa using hz2
              rw [hz3]
              exact hlt_ds ds.headI (headI_mem_self ds hds)
        · exact (ih hbtl hf2.2 hlt_tl).2

theorem groupFold_inv :
    ∀ (l : List Nat) (w : List ((Nat × Nat) × List Nat)),
      l.Pairwise (· < ·) → bucketsOk w → firstsOk w →
      (∀ x ∈ weekElems w, ∀ z ∈ l, x < z) →
      bucketsOk (l.foldl (fun w d => insertDay w (isoYearWeek d) d) w) ∧
      firstsOk (l.foldl (fun w d => insertDay w (isoYearWeek d) d) w) := by
  intro l
  induction l with
  | nil => intro w _ hb hf _; exact ⟨hb, hf⟩
  | cons d tl ih =>
    intro w hp hb hf hcross
    simp only [List.foldl_cons]
    have hpc := List.pairwise_cons.mp hp
    have hins := insertDay_inv (isoYearWeek d) d w hb hf
      (fun x hx => hcross x hx d (List.mem_cons_self _ _))
    apply ih _ hpc.2 hins.1 hins.2
    intro x hx z hz
    have hx2 : x ∈ weekElems w ++ [d] :=
      (insertDay_elems w (isoYearWeek d) d).mem_iff.mp hx
    rcases List.mem_append.mp hx2 with h | h
    · exact hcross x h z (List.mem_cons_of_mem _ hz)
    · have hx3 : x = d := by simpa using h
      rw [hx3]
      exact hpc.1 z hz

theorem monthDays_sorted (y m : Nat) : (monthDays y m).Pairwise (· < ·) := by
  unfold monthDays
  rw [List.pairwise_map]
  exact (List.pairwise_lt_range _).imp (fun h => Nat.add_lt_add_left h _)

/-- C9: grouping the days of a calendar month by ISO week puts every day
of the month in exactly one bucket (the buckets' contents are a
permutation of the month's day list), keeps each bucket's days in
ascending date order, and emits buckets in the chronological order of
their first days (buckets are nonempty with strictly increasing first
days). -/
theorem iso_week_grouping (y m : Nat) :
    (weekElems (groupByIsoWeek (monthDays y m))).Perm (monthDays y m) ∧
    (∀ b ∈ groupByIsoWeek (monthDays y m), b.2 ≠ [] ∧ b.2.Pairwise (· < ·)) ∧
    ((groupByIsoWeek (monthDays y m)).map (fun b => b.2.headI)).Pairwise
      (· < ·) := by
  have hinv := groupFold_inv (monthDays y m) [] (monthDays_sorted y m)
    (fun b hb => absurd hb (List.not_mem_nil b)) List.Pairwise.nil
    (fun x hx => absurd hx (List.not_mem_nil x))
  refine ⟨?_, hinv.1, hinv.2⟩
  have h := groupFold_elems (monthDays y m) []
  simpa [groupByIsoWeek, weekElems] using h

/-- Witness for C9 at March 2024. -/
theorem iso_week_grouping_witness :
    (weekElems (groupByIsoWeek (monthDays 2024 3))).Perm (monthDays 2024 3) ∧
    (∀ b ∈ groupByIsoWeek (monthDays 2024 3), b.2 ≠ [] ∧ b.2.Pairwise (· < ·)) ∧
    ((groupByIsoWeek (monthDays 2024 3)).map (fun b => b.2.headI)).Pairwise
      (· < ·) :=
  iso_week_grouping 2024 3

end TT
